import Mathlib

/-!
Shallow embedding of the ZotWatcher synchronization and filtering engine
(`src/ingest_zotero_api.py` and `src/storage.py`), together with theorems
checking the natural-language specification against the code.

The sqlite store is modelled as in-memory lists of rows, network responses
as explicit input lists, and timestamps as an explicit `now : Nat` parameter.
-/

namespace ZotWatcher

/-- An item record as decoded from the Zotero API.  The field set is taken
from the columns written by `ProfileStorage.upsert_item` and read back by
`_row_to_item` in `src/storage.py`; the decoding itself (`models.py`) is not
part of the embedded core.  `raw` stands for the serialized original
payload. -/
structure ZoteroItem where
  key : String
  version : Nat
  title : String
  abstract : Option String
  creators : List String
  tags : List String
  collections : List String
  year : Option Int
  doi : Option String
  url : Option String
  raw : String
deriving DecidableEq

/-- Digit-string parsing, standing in for Python's `int()` on the strings
this program itself stores (decimal digit runs).  Implemented by structural
recursion over the character list so that proofs can evaluate it. -/
def parseNat? (s : String) : Option Nat :=
  if s.data.isEmpty || !(s.data.all (fun c => c.isDigit)) then none
  else some (s.data.foldl (fun n c => n * 10 + (c.toNat - 48)) 0)

/-- Python's `str.strip()` (ASCII whitespace), by structural recursion. -/
def strip (s : String) : String :=
  ⟨(((s.data.dropWhile (fun c => c.isWhitespace)).reverse.dropWhile
      (fun c => c.isWhitespace)).reverse)⟩

/-- Helper of `splitSlash`: accumulate the current segment (reversed). -/
def splitSlashAux : List Char → List Char → List (List Char)
  | [], acc => [acc.reverse]
  | c :: rest, acc =>
    if c = '/' then acc.reverse :: splitSlashAux rest []
    else splitSlashAux rest (c :: acc)

/-- Python's `str.split("/")`, by structural recursion. -/
def splitSlash (s : String) : List String :=
  (splitSlashAux s.data []).map (fun l => ⟨l⟩)

/-- Python's `str.endswith`, as a suffix test on the character lists. -/
def strEndsWith (s post : String) : Bool :=
  post.data.isSuffixOf s.data

/-- Modelled from the spec: the content hash is "derived from
title+abstract+creators+tags"; the concrete hash function lives in a
utility module that is outside the embedded core, so an injective-enough
string combination stands in for it.  No claim depends on its value. -/
def hash_content (title abstract creators tags : String) : String :=
  title ++ "\x01" ++ abstract ++ "\x01" ++ creators ++ "\x01" ++ tags

/-- Serialization of a string list into a JSON-ish text column, standing in
for Python's `json.dumps`.  No claim depends on its exact format. -/
def jsonDumpList (xs : List String) : String :=
  "[" ++ String.intercalate ", " (xs.map (fun s => "\"" ++ s ++ "\"")) ++ "]"

/-- A row of the `items` table (`SCHEMA` in `src/storage.py`). -/
structure ItemRow where
  key : String
  version : Nat
  title : String
  abstract : Option String
  creators : String
  tags : String
  collections : String
  year : Option Int
  doi : Option String
  url : Option String
  raw_json : String
  content_hash : Option String
  embedding : Option (List Nat)
  updated_at : Nat
deriving DecidableEq

/-- The row inserted by `upsert_item` when the key is not yet present: the
`embedding` column is not in the INSERT column list, so it defaults to NULL,
and `updated_at` takes CURRENT_TIMESTAMP (modelled as `now`). -/
def insertRow (now : Nat) (item : ZoteroItem) (contentHash : Option String) : ItemRow :=
  { key := item.key
    version := item.version
    title := item.title
    abstract := item.abstract
    creators := jsonDumpList item.creators
    tags := jsonDumpList item.tags
    collections := jsonDumpList item.collections
    year := item.year
    doi := item.doi
    url := item.url
    raw_json := item.raw
    content_hash := contentHash
    embedding := none
    updated_at := now }

/-- The `ON CONFLICT(key) DO UPDATE` arm of `upsert_item`: every
item-carried column is overwritten from `excluded`, `updated_at` is
refreshed, and the columns not listed in the UPDATE (`key`, `embedding`)
keep their old values. -/
def updateRow (now : Nat) (item : ZoteroItem) (contentHash : Option String)
    (old : ItemRow) : ItemRow :=
  { key := old.key
    version := item.version
    title := item.title
    abstract := item.abstract
    creators := jsonDumpList item.creators
    tags := jsonDumpList item.tags
    collections := jsonDumpList item.collections
    year := item.year
    doi := item.doi
    url := item.url
    raw_json := item.raw
    content_hash := contentHash
    embedding := old.embedding
    updated_at := now }

/-- `ProfileStorage.upsert_item` (`src/storage.py` lines 171-207): an
`INSERT ... ON CONFLICT(key) DO UPDATE` against the `items` table, keyed by
the item's `key` primary key. -/
def upsert_item (now : Nat) (item : ZoteroItem) (contentHash : Option String)
    (items : List ItemRow) : List ItemRow :=
  if items.any (fun r => r.key == item.key) then
    items.map (fun r => if r.key == item.key then updateRow now item contentHash r else r)
  else
    items ++ [insertRow now item contentHash]

/-- `ProfileStorage.remove_items`: DELETE FROM items WHERE key IN keys. -/
def remove_items (keys : List String) (items : List ItemRow) : List ItemRow :=
  items.filter (fun r => !(keys.contains r.key))

/-- `ProfileStorage.set_embedding`: UPDATE items SET embedding, updated_at
WHERE key = key. -/
def set_embedding (now : Nat) (key : String) (vec : List Nat)
    (items : List ItemRow) : List ItemRow :=
  items.map (fun r =>
    if r.key == key then { r with embedding := some vec, updated_at := now } else r)

/-! ### Collections and the collection filter -/

/-- A Zotero collection as fetched by `ZoteroClient.fetch_collections`.
The Python dataclass also carries a `children` list, but that list is
derived purely from the `parent_key` links of the whole mapping
(`fetch_collections` builds it after all pages are in), so the embedding
keeps the flat record and derives children via `childrenOf`. -/
structure ZColl where
  key : String
  name : String
  parent_key : Option String
deriving DecidableEq

/-- The collection mapping `Dict[str, ZoteroCollection]` in Python dict
insertion order; key lookup returns the first record with the key (a dict
has at most one). -/
def lookupColl (cs : List ZColl) (k : String) : Option ZColl :=
  cs.find? (fun c => c.key == k)

/-- The `children` list that `fetch_collections` attaches to `c`: every
collection of the mapping whose `parent_key` names `c`, in mapping order. -/
def childrenOf (cs : List ZColl) (c : ZColl) : List ZColl :=
  cs.filter (fun x => x.parent_key == some c.key)

/-- `_get_all_descendant_ids` (`src/ingest_zotero_api.py` lines 143-148):
the key of the collection together with, recursively, the keys of all its
children.  The Python recursion has no guard, so the embedding makes the
recursion depth explicit as fuel; an exhausted fuel truncates where Python
would recurse further (and, on cyclic input, diverge). -/
def descendantIds (cs : List ZColl) : Nat → ZColl → List String
  | 0, c => [c.key]
  | fuel + 1, c => c.key :: (childrenOf cs c).flatMap (descendantIds cs fuel)

/-- The parent step of `ZoteroCollection.full_path`'s `while` loop: the
parent collection, provided `parent_key` is set and resolves in the
mapping (`current.parent_key and current.parent_key in all_collections`). -/
def parentIn (cs : List ZColl) (c : ZColl) : Option ZColl :=
  match c.parent_key with
  | none => none
  | some pk => lookupColl cs pk

/-- Helper of `ancestorNames`, taking the already-resolved parent step. -/
def ancestorNamesAux (cs : List ZColl) : Nat → ZColl → Option ZColl → Option (List String)
  | _, c, none => some [c.name]
  | 0, _, some _ => none
  | f + 1, c, some p =>
    (ancestorNamesAux cs f p (parentIn cs p)).map (fun l => l ++ [c.name])

/-- `ZoteroCollection.full_path`'s ancestor walk (`src/ingest_zotero_api.py`
lines 28-35): the names from root to the node.  The Python `while` loop
follows `parent_key` as long as it resolves in the mapping; fuel exhaustion
(`none`) marks the non-terminating walks of a cyclic mapping. -/
def ancestorNames (cs : List ZColl) (fuel : Nat) (c : ZColl) : Option (List String) :=
  ancestorNamesAux cs fuel c (parentIn cs c)

/-- `ZoteroCollection.full_path`: the ancestry names joined by "/".  A
mapping of `cs.length` collections never has a simple ancestor chain longer
than `cs.length`, so that fuel is used; the fallback value is only reached
on cyclic input, where the Python loop does not return at all. -/
def full_path (cs : List ZColl) (c : ZColl) : String :=
  String.intercalate "/" ((ancestorNames cs cs.length c).getD [c.name])

/-- The collection-filter configuration `settings.zotero.collections`.
Modelled from the spec: the configuration surface is
`\x7bids: list of string, names: list of string path, include_children: bool\x7d`
(`settings.py` is outside the embedded core). -/
structure FilterConfig where
  ids : List String
  names : List String
  include_children : Bool
deriving DecidableEq

/-- Modelled from the spec: "If the configuration declares no constraints"
— the configuration is empty when neither ids nor names are configured. -/
def FilterConfig.is_empty (fc : FilterConfig) : Bool :=
  fc.ids.isEmpty && fc.names.isEmpty

/-- The `parts` list of `_find_collection_by_path`: split on "/", strip
whitespace, drop empty segments. -/
def pathParts (path : String) : List String :=
  ((splitSlash path).map strip).filter (fun p => p != "")

/-- `CollectionFilter._find_collection_by_path` (`src/ingest_zotero_api.py`
lines 198-226): candidates are the collections named like the last segment;
a one-segment path takes the first candidate, a longer path takes the first
candidate whose full ancestry path equals the configured path or ends with
`"/" ++ path`. -/
def findCollectionByPath (cs : List ZColl) (path : String) : Option ZColl :=
  let parts := pathParts path
  match parts.getLast? with
  | none => none
  | some target =>
    let candidates := cs.filter (fun c => c.name == target)
    if parts.length == 1 then
      candidates.head?
    else
      candidates.find? (fun c =>
        full_path cs c == path || strEndsWith (full_path cs c) ("/" ++ path))

/-- `CollectionFilter._resolve_allowed_ids` (`src/ingest_zotero_api.py`
lines 160-196).  With an empty configuration the result is the set of all
collection keys; otherwise the union of the contributions of each
configured id and name path (a set in Python — the embedding keeps a list
and states properties up to membership).  The `_allowed_ids` cache is pure
memoization of this value. -/
def resolveAllowedIds (fc : FilterConfig) (cs : List ZColl) : List String :=
  if fc.is_empty then
    cs.map (fun c => c.key)
  else
    (fc.ids.flatMap (fun cid =>
      match lookupColl cs cid with
      | some c => if fc.include_children then descendantIds cs cs.length c else [cid]
      | none => []))
    ++
    (fc.names.flatMap (fun np =>
      match findCollectionByPath cs np with
      | some c => if fc.include_children then descendantIds cs cs.length c else [c.key]
      | none => []))

/-- `CollectionFilter.should_include_item` (`src/ingest_zotero_api.py`
lines 228-240): true under an empty configuration, otherwise true iff some
collection of the item is among the allowed ids. -/
def shouldIncludeItem (fc : FilterConfig) (cs : List ZColl) (item : ZoteroItem) : Bool :=
  if fc.is_empty then true
  else item.collections.any (fun cid => (resolveAllowedIds fc cs).contains cid)

/-! ### The store and the sync run -/

/-- The persisted local state: the `items` table, the `metadata` key/value
table (both columns TEXT) and the `zotero_collections` table. -/
structure Store where
  items : List ItemRow
  metadata : List (String × String)
  collections : List ZColl
deriving DecidableEq

/-- `ProfileStorage.set_metadata`: `REPLACE INTO metadata(key, value)`. -/
def setMetadata (k v : String) (m : List (String × String)) : List (String × String) :=
  if m.any (fun p => p.1 == k) then
    m.map (fun p => if p.1 == k then (k, v) else p)
  else
    m ++ [(k, v)]

/-- `ProfileStorage.get_metadata`: `SELECT value FROM metadata WHERE key`. -/
def getMetadata (k : String) (m : List (String × String)) : Option String :=
  (m.find? (fun p => p.1 == k)).map (fun p => p.2)

/-- `ProfileStorage.last_modified_version`: read the cursor and parse it;
an absent row or an empty value yields `None` (`int(value) if value else
None`). -/
def lastModifiedVersion (s : Store) : Option Nat :=
  match getMetadata "last_modified_version" s.metadata with
  | none => none
  | some v => if v = "" then none else parseNat? v

/-- `ProfileStorage.set_last_modified_version`. -/
def setLastModifiedVersion (v : Nat) (m : List (String × String)) : List (String × String) :=
  setMetadata "last_modified_version" (toString v) m

/-- The result record of a sync run (`IngestStats`). -/
structure IngestStats where
  fetched : Nat
  updated : Nat
  removed : Nat
  filtered : Nat
  last_modified_version : Option Nat
deriving DecidableEq

/-- One page yielded by `ZoteroClient.iter_items`, as `run` consumes it:
the decoded item records of the response body, plus the
`Last-Modified-Version` response header (0 when the header is absent). -/
structure Page where
  items : List ZoteroItem
  version : Nat
deriving DecidableEq

/-- The inputs of one `ZoteroIngestor.run` call: the `full` flag, the
remote's answers (collection tree, item pages, tombstone list of the
`/deleted` endpoint), the filter configuration, and the run's timestamp. -/
structure RunInput where
  full : Bool
  config : FilterConfig
  remoteCollections : List ZColl
  pages : List Page
  deletedResponse : List String
  now : Nat

/-- The mutable state of the page loop in `run`: the items table plus the
counters and the running maximum of page versions. -/
structure LoopState where
  items : List ItemRow
  fetched : Nat
  updated : Nat
  filtered : Nat
  maxVersion : Nat
deriving DecidableEq

/-- The per-record body of the page loop in `run`: filter, then hash and
upsert, bumping the counters. -/
def processItem (inp : RunInput) (st : LoopState) (it : ZoteroItem) : LoopState :=
  if shouldIncludeItem inp.config inp.remoteCollections it then
    { st with
      items := upsert_item inp.now it
        (some (hash_content it.title (it.abstract.getD "")
          (String.intercalate "," it.creators) (String.intercalate "," it.tags)))
        st.items
      fetched := st.fetched + 1
      updated := st.updated + 1 }
  else
    { st with filtered := st.filtered + 1 }

/-- The per-page body of the loop in `run`: absorb the page's reported
version into the running maximum, then process each record. -/
def processPage (inp : RunInput) (st : LoopState) (pg : Page) : LoopState :=
  pg.items.foldl (processItem inp)
    { st with maxVersion := max st.maxVersion pg.version }

/-- `since_version` in `run`: `None` for a full sync, else the stored
cursor. -/
def sinceVersion (inp : RunInput) (s : Store) : Option Nat :=
  if inp.full then none else lastModifiedVersion s

/-- The items table entering the page loop: a full sync with a non-empty
filter clears it first (`clear_all_items`). -/
def itemsAfterClear (inp : RunInput) (s : Store) : List ItemRow :=
  if inp.full && !inp.config.is_empty then [] else s.items

/-- The state of the page loop after all pages of the run, starting from
`max_version = since_version or 0` and zeroed counters. -/
def loopResult (inp : RunInput) (s : Store) : LoopState :=
  inp.pages.foldl (processPage inp)
    { items := itemsAfterClear inp s
      fetched := 0
      updated := 0
      filtered := 0
      maxVersion := (sinceVersion inp s).getD 0 }

/-- The running maximum of reported page versions at the end of the run. -/
def runMaxVersion (inp : RunInput) (s : Store) : Nat :=
  (loopResult inp s).maxVersion

/-- `ZoteroClient.fetch_deleted` as `run` calls it: for a full sync the
argument is `None` and the client returns `[]` without a request; otherwise
the remote's tombstone list is returned. -/
def deletedKeys (inp : RunInput) : List String :=
  if inp.full then [] else inp.deletedResponse

/-- `ZoteroIngestor.run` (`src/ingest_zotero_api.py` lines 249-303),
assuming the run completes without a remote error: fetch and save the
collection tree, optionally clear, stream the pages through the filter and
`upsert_item`, remove the tombstoned keys, and persist the cursor when
`(stats.fetched or full) and max_version`. -/
def run (inp : RunInput) (s : Store) : IngestStats × Store :=
  let res := loopResult inp s
  let dk := deletedKeys inp
  let itemsAfterRemove := remove_items dk res.items
  let persist := (decide (res.fetched ≠ 0) || inp.full) && decide (res.maxVersion ≠ 0)
  let metadata2 := if persist then setLastModifiedVersion res.maxVersion s.metadata else s.metadata
  ({ fetched := res.fetched
     updated := res.updated
     removed := dk.length
     filtered := res.filtered
     last_modified_version :=
       if res.fetched ≠ 0 ∨ inp.full then some res.maxVersion else none }
  , { items := itemsAfterRemove
      metadata := metadata2
      collections := inp.remoteCollections })

/-! ### The page-request loop of `ZoteroClient.iter_items` -/

/-- One HTTP response of the item-listing loop: its status code and whether
its `Link` header carries a `rel="next"` continuation. -/
structure PageResp where
  status : Nat
  hasNext : Bool
deriving DecidableEq

/-- The observable events of the page loop, in order: a yielded page, the
polite-delay sleep, the early return on 304, the exception raised by
`raise_for_status`. -/
inductive PageEv where
  | yielded
  | slept
  | noChange
  | errorRaised (code : Nat)
deriving DecidableEq

/-- The event trace of `ZoteroClient.iter_items` (`src/ingest_zotero_api.py`
lines 63-85) over the remote's successive responses: a 304 returns at once;
a non-success status raises out of the loop (`raise_for_status` raises for
status codes from 400 up); a success yields the page, computes the next
URL, sleeps the polite delay, and loops while a next URL exists. -/
def iterItemsEvents : List PageResp → List PageEv
  | [] => []
  | r :: rest =>
    if r.status == 304 then [PageEv.noChange]
    else if 400 ≤ r.status then [PageEv.errorRaised r.status]
    else PageEv.yielded :: PageEv.slept ::
      (if r.hasNext then iterItemsEvents rest else [])

/-! ### Schema migration in `ProfileStorage.initialize` -/

/-- A SQL value of the migrated `items` table. -/
inductive SqlVal where
  | null
  | int (n : Int)
  | text (s : String)
  | blob (b : List Nat)
deriving DecidableEq

/-- A row of the pre-migration `items` table, as an association of column
name to value over the old schema's columns. -/
abbrev OldRow : Type := List (String × SqlVal)

/-- Column access in a row; SQL NULL for a column the row does not carry. -/
def colVal (r : OldRow) (c : String) : SqlVal :=
  ((r.find? (fun p => p.1 == c)).map (fun p => p.2)).getD SqlVal.null

/-- The column list `new_required` of the migration in
`ProfileStorage.initialize` (`src/storage.py` lines 87-88). -/
def newRequired : List String :=
  ["key", "version", "title", "abstract", "creators", "tags", "collections",
   "year", "doi", "url", "raw_json", "content_hash", "embedding", "updated_at"]

/-- The per-column value of the migration's SELECT list (`src/storage.py`
lines 90-104): literal 0 for `version`, the old value for a column present
under the same name, `'[]'` for a missing `collections` column, NULL for
any other missing column. -/
def migVal (oldCols : List String) (r : OldRow) (col : String) : SqlVal :=
  if col == "version" then SqlVal.int 0
  else if col == "collections" then
    (if oldCols.contains "collections" then colVal r "collections"
     else SqlVal.text "[]")
  else if oldCols.contains col then colVal r col
  else SqlVal.null

/-- The SELECT list the migration builds per row: one value per column of
`new_required`. -/
def migrateSelect (oldCols : List String) (r : OldRow) : OldRow :=
  newRequired.map (fun col => (col, migVal oldCols r col))

/-- The constraints the new `items` schema puts on a migrated row: `title`
and `raw_json` are declared NOT NULL (`version` is the literal 0, and
sqlite's TEXT PRIMARY KEY does not itself forbid NULL). -/
def rowConstraintsOk (nr : OldRow) : Bool :=
  colVal nr "title" != SqlVal.null && colVal nr "raw_json" != SqlVal.null

/-- The whole `INSERT INTO items ... SELECT ... FROM items_old` succeeds
iff every migrated row satisfies the NOT NULL constraints and no two rows
collide on a non-NULL primary key. -/
def migrationOk (oldCols : List String) (rows : List OldRow) : Bool :=
  (rows.all (fun r => rowConstraintsOk (migrateSelect oldCols r))) &&
  ((rows.map (fun r => colVal (migrateSelect oldCols r) "key")).filter
      (fun v => v != SqlVal.null)).Nodup

/-- The `items` rows after the migration branch of
`ProfileStorage.initialize` (`src/storage.py` lines 70-122), reached when
the existing table lacks a `version` column: the old table is renamed, the
new schema created empty, and the single `INSERT ... SELECT` either copies
every row or fails as a whole, in which case the renamed table is dropped
and the new `items` table is left empty. -/
def migrateItemsTable (oldCols : List String) (rows : List OldRow) : List OldRow :=
  if migrationOk oldCols rows then rows.map (migrateSelect oldCols) else []

/-- The `items` rows after `ProfileStorage.initialize` on a store whose
`items` table already exists: tables with a `version` column are kept
as they are (only `CREATE ... IF NOT EXISTS` runs), tables without one go
through the migration. -/
def initItemsTable (oldCols : List String) (rows : List OldRow) : List OldRow :=
  if oldCols.contains "version" then rows else migrateItemsTable oldCols rows

/-! ### Concrete fixtures -/

/-- A one-collection tree for the incremental-sync scenario. -/
def cs1 : List ZColl := [⟨"C1", "Keep", none⟩]

/-- A filter configuration allowing only collection `C1`. -/
def fcC1 : FilterConfig := ⟨["C1"], [], false⟩

/-- Scenario item in collection `C1`. -/
def itA : ZoteroItem := ⟨"A", 6, "Alpha", none, [], [], ["C1"], none, none, none, "rawA"⟩

/-- Scenario item in collection `C1`. -/
def itB : ZoteroItem :=
  ⟨"B", 7, "Beta", some "abs", ["x"], ["t"], ["C1"], some 2020, some "d", some "u", "rawB"⟩

/-- Scenario item in no collection, rejected by the filter. -/
def itC : ZoteroItem := ⟨"C", 7, "Gamma", none, [], [], [], none, none, none, "rawC"⟩

/-- The incremental-sync scenario input: one page of three records
reporting version 7, no tombstones. -/
def inp1 : RunInput := ⟨false, fcC1, cs1, [⟨[itA, itB, itC], 7⟩], [], 100⟩

/-- The scenario's initial store: stored cursor 5. -/
def store1 : Store := ⟨[], [("last_modified_version", "5")], []⟩

/-- The spec's example forest: `Bio` with child `SingleCell`, and a decoy
`SingleCell` under a different parent `Other`. -/
def bioForest : List ZColl :=
  [⟨"1", "Bio", none⟩, ⟨"2", "SingleCell", some "1"⟩,
   ⟨"3", "Other", none⟩, ⟨"4", "SingleCell", some "3"⟩]

/-- Old columns of the migration witness: no `collections` column. -/
def oldColsW : List String := ["key", "title", "raw_json"]

/-- A row of the migration witness's old table. -/
def rowW : OldRow :=
  [("key", SqlVal.text "A"), ("title", SqlVal.text "T"),
   ("raw_json", SqlVal.text "RAW")]

/-- Rank for the example forest: roots 0, children 1. -/
def dBio : String → Nat := fun k => if k == "2" || k == "4" then 1 else 0

/-- Reachability along the derived `children` links: `Desc cs c x` holds
when `x` is `c` itself or lies below `c` in the collection forest. -/
inductive Desc (cs : List ZColl) : ZColl → ZColl → Prop where
  | refl (c : ZColl) : Desc cs c c
  | head (c y x : ZColl) : y ∈ childrenOf cs c → Desc cs y x → Desc cs c x

/-- A ranking witnessing that the collection mapping's parent/children
links form an acyclic forest: the rank strictly grows from parent to
child and is bounded on the mapping. -/
abbrev AcyclicRank (cs : List ZColl) (d : String → Nat) (M : Nat) : Prop :=
  (∀ x ∈ cs, d x.key ≤ M) ∧
  (∀ x ∈ cs, ∀ y ∈ cs, y.parent_key = some x.key → d x.key < d y.key)

/-! ### Shared lemmas about `upsert_item` -/

/-- When no stored row carries the item's key, `upsert_item` appends a
fresh row. -/
theorem upsert_item_of_not_mem (now : Nat) (item : ZoteroItem) (ch : Option String)
    (items : List ItemRow) (h : ∀ r ∈ items, r.key ≠ item.key) :
    upsert_item now item ch items = items ++ [insertRow now item ch] := by
  have hany : items.any (fun r => r.key == item.key) = false := by
    simp only [List.any_eq_false, beq_iff_eq]
    exact h
  simp [upsert_item, hany]

/-- When some stored row carries the item's key, `upsert_item` rewrites
exactly the rows with that key through `updateRow`. -/
theorem upsert_item_of_mem (now : Nat) (item : ZoteroItem) (ch : Option String)
    (items : List ItemRow) (h : ∃ r ∈ items, r.key = item.key) :
    upsert_item now item ch items =
      items.map (fun r =>
        if r.key = item.key then updateRow now item ch r else r) := by
  have hany : items.any (fun r => r.key == item.key) = true := by
    rcases h with ⟨r, hr, hk⟩
    exact List.any_eq_true.2 ⟨r, hr, by simp [hk]⟩
  simp only [upsert_item, hany, if_true]
  apply List.map_congr_left
  intro r _
  by_cases hk : r.key = item.key <;> simp [hk]

/-! ### Claims -/

/-- C1: an incremental sync whose stored cursor is 5, with one remote page
of 3 records reporting version 7, of which 2 pass the collection filter and
1 is rejected, and no tombstones, returns stats fetched=2, updated=2,
filtered=1, removed=0, last_modified_version=7, and afterwards the store's
persisted cursor equals 7. -/
theorem run_incremental_scenario :
    (run inp1 store1).1 =
      { fetched := 2, updated := 2, removed := 0, filtered := 1,
        last_modified_version := some 7 } ∧
    getMetadata "last_modified_version" (run inp1 store1).2.metadata = some "7" ∧
    lastModifiedVersion (run inp1 store1).2 = some 7 := by
  refine ⟨by decide, by decide, by decide⟩

/-- C3: `upsert_item` is insert-or-update by the item's key and total (it
never fails on a key conflict): a key absent from the store appends a fresh
row carrying the item's values, and a key already present has every
item-carried column overwritten with the new item's values and the update
timestamp refreshed (the row's key and its embedding column are not part of
the update list). -/
theorem upsert_insert_or_update (now : Nat) (item : ZoteroItem) (ch : Option String)
    (items : List ItemRow) :
    ((∀ r ∈ items, r.key ≠ item.key) →
      upsert_item now item ch items = items ++
        [{ key := item.key, version := item.version, title := item.title,
           abstract := item.abstract, creators := jsonDumpList item.creators,
           tags := jsonDumpList item.tags, collections := jsonDumpList item.collections,
           year := item.year, doi := item.doi, url := item.url, raw_json := item.raw,
           content_hash := ch, embedding := none, updated_at := now }]) ∧
    ((∃ r ∈ items, r.key = item.key) →
      upsert_item now item ch items = items.map (fun r =>
        if r.key = item.key then
          { key := r.key, version := item.version, title := item.title,
            abstract := item.abstract, creators := jsonDumpList item.creators,
            tags := jsonDumpList item.tags, collections := jsonDumpList item.collections,
            year := item.year, doi := item.doi, url := item.url, raw_json := item.raw,
            content_hash := ch, embedding := r.embedding, updated_at := now }
        else r)) := by
  constructor
  · intro h
    exact upsert_item_of_not_mem now item ch items h
  · intro h
    rw [upsert_item_of_mem now item ch items h]
    apply List.map_congr_left
    intro r _
    by_cases hk : r.key = item.key <;> simp [hk, updateRow]

/-- Witness for C3: inserting a fresh key appends exactly the new row. -/
theorem upsert_insert_or_update_witness :
    upsert_item 5 itA none [] =
      [{ key := "A", version := 6, title := "Alpha", abstract := none,
         creators := jsonDumpList [], tags := jsonDumpList [],
         collections := jsonDumpList ["C1"], year := none, doi := none,
         url := none, raw_json := "rawA", content_hash := none,
         embedding := none, updated_at := 5 }] :=
  (upsert_insert_or_update 5 itA none []).1 (by decide)

/-- C9: `upsert_item` never modifies the embedding column — a fresh insert
leaves it NULL, an update on an existing key leaves every row's stored
embedding unchanged, and an embedding attached by `set_embedding` survives
a later re-upsert of the same item. -/
theorem upsert_preserves_embedding (now1 now2 : Nat) (item : ZoteroItem)
    (ch : Option String) (vec : List Nat) (items : List ItemRow) :
    ((∀ r ∈ items, r.key ≠ item.key) →
      ∃ r2, upsert_item now2 item ch items = items ++ [r2] ∧ r2.embedding = none) ∧
    ((∃ r ∈ items, r.key = item.key) →
      (upsert_item now2 item ch items).map (fun r => r.embedding) =
        items.map (fun r => r.embedding)) ∧
    ((∃ r ∈ items, r.key = item.key) →
      ∀ r2 ∈ upsert_item now2 item ch (set_embedding now1 item.key vec items),
        r2.key = item.key → r2.embedding = some vec) := by
  refine ⟨?_, ?_, ?_⟩
  · intro h
    exact ⟨insertRow now2 item ch, upsert_item_of_not_mem now2 item ch items h, rfl⟩
  · intro h
    rw [upsert_item_of_mem now2 item ch items h, List.map_map]
    apply List.map_congr_left
    intro r _
    by_cases hk : r.key = item.key <;> simp [hk, updateRow]
  · intro h r2 hr2 hkey
    have hmem : ∃ r ∈ set_embedding now1 item.key vec items, r.key = item.key := by
      rcases h with ⟨r, hr, hk⟩
      refine ⟨if r.key == item.key then
          { r with embedding := some vec, updated_at := now1 } else r, ?_, ?_⟩
      · exact List.mem_map.2 ⟨r, hr, rfl⟩
      · simp [hk]
    rw [upsert_item_of_mem now2 item ch _ hmem] at hr2
    rcases List.mem_map.1 hr2 with ⟨r0, hr0, hback⟩
    by_cases hk0 : r0.key = item.key
    · rw [if_pos hk0] at hback
      rcases List.mem_map.1 hr0 with ⟨rr, _, hrr⟩
      by_cases hkr : rr.key = item.key
      · rw [← hback]
        rw [← hrr]
        simp [updateRow, hkr]
      · exfalso
        apply hkr
        rw [← hk0, ← hrr]
        simp [hkr]
    · rw [if_neg hk0] at hback
      exact absurd (hback ▸ hkey) hk0

/-- Witness for C9: an embedding written by `set_embedding` is still there
after re-upserting the same item. -/
theorem upsert_preserves_embedding_witness :
    (updateRow 9 itA (some "h")
      { insertRow 5 itA none with embedding := some [1, 2], updated_at := 8 }).embedding
      = some [1, 2] :=
  (upsert_preserves_embedding 8 9 itA (some "h") [1, 2] [insertRow 5 itA none]).2.2
    ⟨insertRow 5 itA none, by decide, rfl⟩
    (updateRow 9 itA (some "h")
      { insertRow 5 itA none with embedding := some [1, 2], updated_at := 8 })
    (by decide) (by decide)

/-- C4 counterexample: on the empty collection tree, the no-constraints
result of `_resolve_allowed_ids` (the set of all collection keys) is the
very same value as the result of a configured filter that matches nothing,
so the two are not represented distinctly. -/
theorem no_filter_equals_empty_counterexample :
    FilterConfig.is_empty ⟨[], [], true⟩ = true ∧
    FilterConfig.is_empty ⟨["X"], [], true⟩ = false ∧
    resolveAllowedIds ⟨[], [], true⟩ [] = resolveAllowedIds ⟨["X"], [], true⟩ [] ∧
    resolveAllowedIds ⟨[], [], true⟩ [] = [] := by
  refine ⟨rfl, rfl, by decide, by decide⟩

/-- C4 (amended): when the configuration declares no constraints,
`_resolve_allowed_ids` returns the set of all collection keys of the tree —
not a distinct "match everything" sentinel, and equal to the empty set on
an empty tree — and `should_include_item` accepts every item by consulting
the configuration's emptiness, which is how callers distinguish "no filter"
from a configured filter that matches nothing. -/
theorem no_filter_result (fc : FilterConfig) (cs : List ZColl) (item : ZoteroItem)
    (h : fc.is_empty = true) :
    resolveAllowedIds fc cs = cs.map (fun c => c.key) ∧
    shouldIncludeItem fc cs item = true := by
  constructor
  · simp [resolveAllowedIds, h]
  · simp [shouldIncludeItem, h]

/-- Witness for C4 (amended): the empty configuration on the scenario tree
resolves to all keys and accepts the item outside every collection. -/
theorem no_filter_result_witness :
    resolveAllowedIds ⟨[], [], false⟩ cs1 = ["C1"] ∧
    shouldIncludeItem ⟨[], [], false⟩ cs1 itC = true :=
  no_filter_result ⟨[], [], false⟩ cs1 itC (by decide)

/-- Helper: `getLast?` skips the head of a cons when the tail is
non-empty. -/
theorem getLast?_cons_ne {α : Type} (a : α) (l : List α) (h : l ≠ []) :
    (a :: l).getLast? = l.getLast? := by
  cases l with
  | nil => exact absurd rfl h
  | cons b t => exact List.getLast?_cons_cons

/-- C6 counterexample: a page request answered with a non-success status
raises out of the page loop without the polite delay for that iteration —
the trace holds the raised error and no sleep at all. -/
theorem iter_items_error_skips_delay :
    iterItemsEvents [⟨500, false⟩] = [PageEv.errorRaised 500] ∧
    PageEv.slept ∉ iterItemsEvents [⟨500, false⟩] := by
  refine ⟨by decide, by decide⟩

/-- C6 (amended): the polite delay runs once after every successfully
yielded page — including the final page whose response carries no
continuation link — and is skipped on the paths that end the loop with a
304 "no changes" return or a raised non-success status, which are always
the trace's last event. -/
theorem iter_items_delay (rs : List PageResp) :
    (iterItemsEvents rs).count PageEv.slept =
      (iterItemsEvents rs).count PageEv.yielded ∧
    (∀ code, PageEv.errorRaised code ∈ iterItemsEvents rs →
      (iterItemsEvents rs).getLast? = some (PageEv.errorRaised code)) ∧
    (PageEv.noChange ∈ iterItemsEvents rs →
      (iterItemsEvents rs).getLast? = some PageEv.noChange) := by
  induction rs with
  | nil => refine ⟨rfl, by simp [iterItemsEvents], by simp [iterItemsEvents]⟩
  | cons r rest ih =>
    by_cases h304 : (r.status == 304) = true
    · refine ⟨?_, ?_, ?_⟩ <;> simp [iterItemsEvents, h304]
    · by_cases herr : 400 ≤ r.status
      · refine ⟨?_, ?_, ?_⟩ <;> simp [iterItemsEvents, h304, herr]
      · by_cases hnext : r.hasNext = true
        · refine ⟨?_, ?_, ?_⟩
          · simp only [iterItemsEvents, h304, herr, hnext, if_false, if_true,
              Bool.false_eq_true, List.count_cons]
            simp [ih.1]
          · intro code hmem
            simp only [iterItemsEvents, h304, herr, hnext, if_false, if_true,
              Bool.false_eq_true, List.mem_cons] at hmem
            rcases hmem with h | h | h
            · exact absurd h (by simp)
            · exact absurd h (by simp)
            · have htail := ih.2.1 code h
              have hne : iterItemsEvents rest ≠ [] := by
                intro hnil
                rw [hnil] at h
                exact absurd h (List.not_mem_nil _)
              simp only [iterItemsEvents, h304, herr, hnext, if_false, if_true,
                Bool.false_eq_true]
              rw [List.getLast?_cons_cons, getLast?_cons_ne _ _ hne]
              exact htail
          · intro hmem
            simp only [iterItemsEvents, h304, herr, hnext, if_false, if_true,
              Bool.false_eq_true, List.mem_cons] at hmem
            rcases hmem with h | h | h
            · exact absurd h (by simp)
            · exact absurd h (by simp)
            · have htail := ih.2.2 h
              have hne : iterItemsEvents rest ≠ [] := by
                intro hnil
                rw [hnil] at h
                exact absurd h (List.not_mem_nil _)
              simp only [iterItemsEvents, h304, herr, hnext, if_false, if_true,
                Bool.false_eq_true]
              rw [List.getLast?_cons_cons, getLast?_cons_ne _ _ hne]
              exact htail
        · refine ⟨?_, ?_, ?_⟩ <;> simp [iterItemsEvents, h304, herr, hnext]

/-- Witness for C6 (amended): a success page without continuation is
followed by exactly one sleep, and a trailing error is the last event. -/
theorem iter_items_delay_witness :
    (iterItemsEvents [⟨200, true⟩, ⟨500, false⟩]).count PageEv.slept =
      (iterItemsEvents [⟨200, true⟩, ⟨500, false⟩]).count PageEv.yielded ∧
    (iterItemsEvents [⟨200, true⟩, ⟨500, false⟩]).getLast? =
      some (PageEv.errorRaised 500) :=
  ⟨(iter_items_delay [⟨200, true⟩, ⟨500, false⟩]).1,
   (iter_items_delay [⟨200, true⟩, ⟨500, false⟩]).2.1 500 (by decide)⟩

/-! ### Shared lemmas about the page loop's version maximum -/

/-- Processing one record leaves the running version maximum alone. -/
theorem processItem_maxVersion (inp : RunInput) (st : LoopState) (it : ZoteroItem) :
    (processItem inp st it).maxVersion = st.maxVersion := by
  by_cases h : shouldIncludeItem inp.config inp.remoteCollections it = true <;>
    simp [processItem, h]

/-- Folding the records of a page leaves the running version maximum
alone. -/
theorem foldl_processItem_maxVersion (inp : RunInput) (l : List ZoteroItem)
    (st : LoopState) :
    (l.foldl (processItem inp) st).maxVersion = st.maxVersion := by
  induction l generalizing st with
  | nil => rfl
  | cons it l ih => rw [List.foldl_cons, ih, processItem_maxVersion]

/-- A page can only raise the running version maximum. -/
theorem processPage_maxVersion_ge (inp : RunInput) (st : LoopState) (pg : Page) :
    st.maxVersion ≤ (processPage inp st pg).maxVersion := by
  rw [processPage, foldl_processItem_maxVersion]
  exact le_max_left _ _

/-- The page loop can only raise the running version maximum. -/
theorem foldl_processPage_maxVersion_ge (inp : RunInput) (pgs : List Page)
    (st : LoopState) :
    st.maxVersion ≤ (pgs.foldl (processPage inp) st).maxVersion := by
  induction pgs generalizing st with
  | nil => exact le_refl _
  | cons pg pgs ih =>
    rw [List.foldl_cons]
    exact le_trans (processPage_maxVersion_ge inp st pg) (ih _)

/-- C2 counterexample: a full sync that completes with a zero maximum
reported version (the `Last-Modified-Version` header absent, so parsed as
0) does not persist the maximum version as the cursor — the stored cursor
stays at its old value although the run was a full sync. -/
theorem cursor_persist_full_sync_counterexample :
    (⟨true, ⟨[], [], false⟩, [], [⟨[], 0⟩], [], 0⟩ : RunInput).full = true ∧
    runMaxVersion ⟨true, ⟨[], [], false⟩, [], [⟨[], 0⟩], [], 0⟩
      ⟨[], [("last_modified_version", "3")], []⟩ = 0 ∧
    (run ⟨true, ⟨[], [], false⟩, [], [⟨[], 0⟩], [], 0⟩
      ⟨[], [("last_modified_version", "3")], []⟩).2.metadata =
      [("last_modified_version", "3")] ∧
    lastModifiedVersion (run ⟨true, ⟨[], [], false⟩, [], [⟨[], 0⟩], [], 0⟩
      ⟨[], [("last_modified_version", "3")], []⟩).2 = some 3 := by
  refine ⟨rfl, by decide, by decide, by decide⟩

/-- C2 (amended): a completed run persists the new maximum reported
version as the cursor if and only if at least one item was fetched or the
run was a full sync AND that maximum is nonzero; in every other case the
stored cursor rows are left unchanged. -/
theorem cursor_persist_guard (inp : RunInput) (s : Store) :
    (((run inp s).1.fetched ≠ 0 ∨ inp.full = true) ∧ runMaxVersion inp s ≠ 0 →
      (run inp s).2.metadata =
        setLastModifiedVersion (runMaxVersion inp s) s.metadata) ∧
    (¬(((run inp s).1.fetched ≠ 0 ∨ inp.full = true) ∧ runMaxVersion inp s ≠ 0) →
      (run inp s).2.metadata = s.metadata) := by
  have hfet : (run inp s).1.fetched = (loopResult inp s).fetched := rfl
  have hmeta : (run inp s).2.metadata =
      if ((decide ((loopResult inp s).fetched ≠ 0) || inp.full) &&
          decide ((loopResult inp s).maxVersion ≠ 0)) = true
      then setLastModifiedVersion (loopResult inp s).maxVersion s.metadata
      else s.metadata := rfl
  constructor
  · rintro ⟨h1, h2⟩
    rw [hfet] at h1
    rw [runMaxVersion] at h2
    have hp : ((decide ((loopResult inp s).fetched ≠ 0) || inp.full) &&
        decide ((loopResult inp s).maxVersion ≠ 0)) = true := by
      rcases h1 with h1 | h1 <;> simp [h1, h2]
    rw [hmeta, if_pos hp, runMaxVersion]
  · intro h
    rw [hfet, runMaxVersion] at h
    push_neg at h
    have hp : ((decide ((loopResult inp s).fetched ≠ 0) || inp.full) &&
        decide ((loopResult inp s).maxVersion ≠ 0)) = false := by
      by_cases h1 : (loopResult inp s).fetched = 0
      · by_cases h3 : inp.full = true
        · simp [h1, h3, h (Or.inr h3)]
        · rw [Bool.not_eq_true] at h3
          simp [h1, h3]
      · simp [h1, h (Or.inl h1)]
    rw [hmeta, if_neg (fun hc => Bool.false_ne_true (hp ▸ hc))]

/-- Witness for C2 (amended): in the scenario run the guard holds and the
cursor rows become exactly the updated metadata. -/
theorem cursor_persist_guard_witness :
    (run inp1 store1).2.metadata =
      setLastModifiedVersion (runMaxVersion inp1 store1) store1.metadata :=
  (cursor_persist_guard inp1 store1).1 (by refine ⟨Or.inl ?_, ?_⟩ <;> decide)

/-- C8 counterexample: a full sync against a remote whose reported page
version (7) is lower than the stored cursor (10) persists 7, so the
stored `last_modified_version` decreases across this successful run. -/
theorem cursor_decreases_on_full_sync :
    lastModifiedVersion ⟨[], [("last_modified_version", "10")], []⟩ = some 10 ∧
    lastModifiedVersion (run ⟨true, ⟨[], [], false⟩, [], [⟨[], 7⟩], [], 0⟩
      ⟨[], [("last_modified_version", "10")], []⟩).2 = some 7 := by
  refine ⟨by decide, by decide⟩

/-- C8 (amended): across incremental (non-full) runs the stored cursor
never decreases — the run either leaves the metadata unchanged or persists
a maximum version at least as large as the stored cursor; a full sync may
lower the cursor when the remote reports a smaller version. -/
theorem cursor_monotone_incremental (inp : RunInput) (s : Store) (v : Nat)
    (hfull : inp.full = false) (hv : lastModifiedVersion s = some v) :
    (run inp s).2.metadata = s.metadata ∨
    ∃ w, v ≤ w ∧ (run inp s).2.metadata = setLastModifiedVersion w s.metadata := by
  have hsince : sinceVersion inp s = some v := by
    rw [sinceVersion, hfull]
    simpa using hv
  have hmax : v ≤ runMaxVersion inp s := by
    simp only [runMaxVersion, loopResult]
    rw [hsince]
    simp only [Option.getD_some]
    exact foldl_processPage_maxVersion_ge inp inp.pages
      ⟨itemsAfterClear inp s, 0, 0, 0, v⟩
  have hmeta : (run inp s).2.metadata =
      if ((decide ((loopResult inp s).fetched ≠ 0) || inp.full) &&
          decide ((loopResult inp s).maxVersion ≠ 0)) = true
      then setLastModifiedVersion (loopResult inp s).maxVersion s.metadata
      else s.metadata := rfl
  by_cases hp : ((decide ((loopResult inp s).fetched ≠ 0) || inp.full) &&
      decide ((loopResult inp s).maxVersion ≠ 0)) = true
  · right
    refine ⟨runMaxVersion inp s, hmax, ?_⟩
    rw [hmeta, if_pos hp, runMaxVersion]
  · left
    rw [hmeta, if_neg hp]

/-- Witness for C8 (amended): the scenario's incremental run raises the
cursor from 5 to 7. -/
theorem cursor_monotone_incremental_witness :
    (run inp1 store1).2.metadata = store1.metadata ∨
    ∃ w, 5 ≤ w ∧ (run inp1 store1).2.metadata =
      setLastModifiedVersion w store1.metadata :=
  cursor_monotone_incremental inp1 store1 5 rfl (by decide)

/-! ### Shared lemmas about migrated rows -/

/-- Column access steps over a cons cell of a row. -/
theorem colVal_cons (p : String × SqlVal) (r : OldRow) (c : String) :
    colVal (p :: r) c = if p.1 == c then p.2 else colVal r c := by
  by_cases h : (p.1 == c) = true <;> simp [colVal, List.find?, h]

/-- Column access in a row built by tagging each column name with a value
returns that column's value. -/
theorem colVal_map_pairs (l : List String) (f : String → SqlVal) (c : String)
    (hc : c ∈ l) :
    colVal (l.map (fun col => (col, f col))) c = f c := by
  induction l with
  | nil => cases hc
  | cons a l ih =>
    rw [List.map_cons, colVal_cons]
    by_cases h : a = c
    · simp [h]
    · have hb : (((a, f a) : String × SqlVal).1 == c) = false := by simp [h]
      rw [hb]
      simp only [Bool.false_eq_true, if_false]
      rcases List.mem_cons.1 hc with h' | h'
      · exact absurd h'.symm h
      · exact ih h'

/-- Column access in a migrated row is the migration's per-column value. -/
theorem colVal_migrateSelect (oldCols : List String) (r : OldRow) (c : String)
    (hc : c ∈ newRequired) :
    colVal (migrateSelect oldCols r) c = migVal oldCols r c :=
  colVal_map_pairs newRequired (migVal oldCols r) c hc

/-- C7 counterexample: an old `items` table lacking the `version` column
and also lacking the `raw_json` column makes the migration's single INSERT
violate the new schema's NOT NULL constraint, so the whole migration fails,
the renamed table is dropped, and the prior row is NOT present afterwards. -/
theorem migration_drops_rows_counterexample :
    (["key", "title"] : List String).contains "version" = false ∧
    initItemsTable ["key", "title"]
      [[("key", SqlVal.text "A"), ("title", SqlVal.text "T")]] = [] := by
  refine ⟨by decide, by decide⟩

/-- C7 (amended): for a store whose `items` table lacks the `version`
column, whenever the migration's INSERT satisfies the new schema's
constraints (every migrated row carries a non-NULL `title` and `raw_json`,
and non-NULL keys do not collide), the table afterwards holds exactly the
migrated image of every prior row: `version` is 0, a missing `collections`
column defaults to the empty list `'[]'`, and every column that existed
under the same name is copied forward unchanged. -/
theorem migration_copies_rows (oldCols : List String) (rows : List OldRow)
    (hv : oldCols.contains "version" = false)
    (hok : migrationOk oldCols rows = true) :
    initItemsTable oldCols rows = rows.map (migrateSelect oldCols) ∧
    ∀ r ∈ rows,
      colVal (migrateSelect oldCols r) "version" = SqlVal.int 0 ∧
      (oldCols.contains "collections" = false →
        colVal (migrateSelect oldCols r) "collections" = SqlVal.text "[]") ∧
      (∀ c, c ∈ newRequired → c ≠ "version" → oldCols.contains c = true →
        colVal (migrateSelect oldCols r) c = colVal r c) := by
  constructor
  · unfold initItemsTable migrateItemsTable
    rw [hv, hok]
    rfl
  · intro r _
    refine ⟨?_, ?_, ?_⟩
    · rw [colVal_migrateSelect oldCols r "version" (by decide)]
      rfl
    · intro hcoll
      rw [colVal_migrateSelect oldCols r "collections" (by decide)]
      unfold migVal
      rw [hcoll]
      rfl
    · intro c hc hne hcont
      rw [colVal_migrateSelect oldCols r c hc]
      have h1 : (c == "version") = false := by simp [hne]
      by_cases h2 : c = "collections"
      · subst h2
        unfold migVal
        rw [hcont]
        rfl
      · have h2' : (c == "collections") = false := by simp [h2]
        unfold migVal
        rw [h1, h2', hcont]
        rfl

/-- C5: name-path resolution.  A returned collection always bears the
path's last segment as its own name and, for a multi-segment path, has a
full root-to-node ancestry path equal to the configured path or ending
with it at a `/` boundary; whenever some collection satisfies that
condition a collection is returned (the first such candidate in mapping
order); a single-segment path picks the first same-name candidate in
mapping order; and on the spec's example forest the path `Bio/SingleCell`
resolves to exactly the `SingleCell` collection under `Bio` (key "2"), not
to the decoy `SingleCell` under `Other`. -/
theorem find_by_path_characterization (cs : List ZColl) (path : String) :
    (∀ c, 2 ≤ (pathParts path).length → findCollectionByPath cs path = some c →
      c ∈ cs ∧ some c.name = (pathParts path).getLast? ∧
      (full_path cs c = path ∨ strEndsWith (full_path cs c) ("/" ++ path) = true)) ∧
    (∀ t, pathParts path = [t] →
      findCollectionByPath cs path = (cs.filter (fun c => c.name == t)).head?) ∧
    (∀ c, 2 ≤ (pathParts path).length → c ∈ cs →
      some c.name = (pathParts path).getLast? →
      (full_path cs c = path ∨ strEndsWith (full_path cs c) ("/" ++ path) = true) →
      ∃ c2, findCollectionByPath cs path = some c2) ∧
    findCollectionByPath bioForest "Bio/SingleCell" =
      some ⟨"2", "SingleCell", some "1"⟩ := by
  refine ⟨?_, ?_, ?_, by decide⟩
  · intro c hlen hfind
    cases hlast : (pathParts path).getLast? with
    | none =>
      simp only [findCollectionByPath, hlast] at hfind
      exact Option.noConfusion hfind
    | some t =>
      have hne1 : ((pathParts path).length == 1) = false := by
        have h : (pathParts path).length ≠ 1 := by omega
        simp [h]
      simp only [findCollectionByPath, hlast, hne1, Bool.false_eq_true,
        if_false] at hfind
      have hmem := List.mem_of_find?_eq_some hfind
      have hprop := List.find?_some hfind
      refine ⟨(List.mem_filter.1 hmem).1, ?_, ?_⟩
      · have hn := (List.mem_filter.1 hmem).2
        rw [beq_iff_eq] at hn
        rw [hn]
      · rw [Bool.or_eq_true] at hprop
        rcases hprop with h | h
        · exact Or.inl (beq_iff_eq.1 h)
        · exact Or.inr h
  · intro t hpp
    simp only [findCollectionByPath, hpp, List.getLast?_singleton,
      List.length_cons, List.length_nil]
    simp
  · intro c hlen hcmem hname hcond
    cases hlast : (pathParts path).getLast? with
    | none =>
      rw [hlast] at hname
      exact absurd hname (by simp)
    | some t =>
      have hne1 : ((pathParts path).length == 1) = false := by
        have h : (pathParts path).length ≠ 1 := by omega
        simp [h]
      simp only [findCollectionByPath, hlast, hne1, Bool.false_eq_true,
        if_false]
      rw [hlast] at hname
      have hnamec : (c.name == t) = true := by
        rw [beq_iff_eq]
        exact Option.some.inj hname
      have hcondb : (full_path cs c == path ||
          strEndsWith (full_path cs c) ("/" ++ path)) = true := by
        rcases hcond with h | h
        · simp [h]
        · simp [h]
      have hsome : ((cs.filter (fun x => x.name == t)).find? (fun x =>
          full_path cs x == path ||
          strEndsWith (full_path cs x) ("/" ++ path))).isSome := by
        rw [List.find?_isSome]
        exact ⟨c, List.mem_filter.2 ⟨hcmem, hnamec⟩, hcondb⟩
      rcases Option.isSome_iff_exists.1 hsome with ⟨c2, hc2⟩
      exact ⟨c2, hc2⟩

/-- Witness for C5: the multi-segment soundness conjunct applied on the
example forest at the resolved collection. -/
theorem find_by_path_characterization_witness :
    (⟨"2", "SingleCell", some "1"⟩ : ZColl) ∈ bioForest ∧
    some (ZColl.name ⟨"2", "SingleCell", some "1"⟩) =
      (pathParts "Bio/SingleCell").getLast? ∧
    (full_path bioForest ⟨"2", "SingleCell", some "1"⟩ = "Bio/SingleCell" ∨
      strEndsWith (full_path bioForest ⟨"2", "SingleCell", some "1"⟩)
        ("/" ++ "Bio/SingleCell") = true) :=
  (find_by_path_characterization bioForest "Bio/SingleCell").1
    ⟨"2", "SingleCell", some "1"⟩ (by decide) (by decide)

/-- Witness for C7 (amended): a constraint-satisfying one-row table is
migrated with `version` 0, defaulted `collections`, and its `title` copied
forward. -/
theorem migration_copies_rows_witness :
    initItemsTable oldColsW [rowW] = [migrateSelect oldColsW rowW] ∧
    colVal (migrateSelect oldColsW rowW) "version" = SqlVal.int 0 ∧
    colVal (migrateSelect oldColsW rowW) "collections" = SqlVal.text "[]" ∧
    colVal (migrateSelect oldColsW rowW) "title" = colVal rowW "title" := by
  have h := migration_copies_rows oldColsW [rowW] (by decide) (by decide)
  exact ⟨h.1, (h.2 rowW (by decide)).1,
    (h.2 rowW (by decide)).2.1 (by decide),
    (h.2 rowW (by decide)).2.2 "title" (by decide) (by decide) (by decide)⟩

/-! ### Shared lemmas about the forest traversals -/

/-- Children belong to the mapping. -/
theorem mem_of_mem_childrenOf {cs : List ZColl} {x y : ZColl}
    (h : y ∈ childrenOf cs x) : y ∈ cs :=
  (List.mem_filter.1 h).1

/-- Children point back to their parent. -/
theorem parent_of_mem_childrenOf {cs : List ZColl} {x y : ZColl}
    (h : y ∈ childrenOf cs x) : y.parent_key = some x.key := by
  have hb := (List.mem_filter.1 h).2
  rwa [beq_iff_eq] at hb

/-- An acyclic rank strictly grows along a child step. -/
theorem rank_lt_of_child {cs : List ZColl} {d : String → Nat} {M : Nat}
    (hA : AcyclicRank cs d M) {x y : ZColl} (hx : x ∈ cs)
    (hy : y ∈ childrenOf cs x) : d x.key < d y.key :=
  hA.2 x hx y (mem_of_mem_childrenOf hy) (parent_of_mem_childrenOf hy)

/-- Pointwise equal functions flat-map equally. -/
theorem flatMap_congrOn {α β : Type} (l : List α) (f g : α → List β)
    (h : ∀ a ∈ l, f a = g a) : l.flatMap f = l.flatMap g := by
  induction l with
  | nil => rfl
  | cons a l ih =>
    rw [List.flatMap_cons, List.flatMap_cons, h a (List.mem_cons_self a l),
      ih (fun b hb => h b (List.mem_cons_of_mem a hb))]

/-- Under an acyclic rank, the descendant listing is stable once the fuel
covers the remaining rank headroom. -/
theorem descendantIds_stable {cs : List ZColl} {d : String → Nat} {M : Nat}
    (hA : AcyclicRank cs d M) :
    ∀ n, ∀ c ∈ cs, M + 1 - d c.key ≤ n → ∀ m, n ≤ m →
      descendantIds cs m c = descendantIds cs n c := by
  intro n
  induction n with
  | zero =>
    intro c hc hb _ _
    have := hA.1 c hc
    omega
  | succ n ih =>
    intro c hc hb m hm
    cases m with
    | zero => omega
    | succ m =>
      rw [descendantIds, descendantIds]
      refine congrArg (fun l => c.key :: l) ?_
      refine flatMap_congrOn _ _ _ ?_
      intro y hy
      have hycs : y ∈ cs := mem_of_mem_childrenOf hy
      have hlt : d c.key < d y.key := rank_lt_of_child hA hc hy
      have hby : M + 1 - d y.key ≤ n := by
        have := hA.1 y hycs
        omega
      rw [ih y hycs hby m (by omega)]

/-- Every key listed by the descendant traversal is the key of a
descendant. -/
theorem mem_descendantIds_sound {cs : List ZColl} :
    ∀ n (c : ZColl) (k : String), k ∈ descendantIds cs n c →
      ∃ x, Desc cs c x ∧ x.key = k := by
  intro n
  induction n with
  | zero =>
    intro c k hk
    rw [descendantIds] at hk
    rcases List.mem_singleton.1 hk with h
    exact ⟨c, Desc.refl c, h.symm⟩
  | succ n ih =>
    intro c k hk
    rw [descendantIds] at hk
    rcases List.mem_cons.1 hk with h | h
    · exact ⟨c, Desc.refl c, h.symm⟩
    · rcases List.mem_flatMap.1 h with ⟨y, hy, hky⟩
      rcases ih y k hky with ⟨x, hx, hxk⟩
      exact ⟨x, Desc.head c y x hy hx, hxk⟩

/-- Under an acyclic rank, the key of every descendant is listed once the
fuel covers the remaining rank headroom. -/
theorem mem_descendantIds_complete {cs : List ZColl} {d : String → Nat}
    {M : Nat} (hA : AcyclicRank cs d M) :
    ∀ (c x : ZColl), Desc cs c x → c ∈ cs → ∀ n, M + 1 - d c.key ≤ n →
      x.key ∈ descendantIds cs n c := by
  intro c x hd
  induction hd with
  | refl c =>
    intro hc n hn
    have := hA.1 c hc
    cases n with
    | zero => omega
    | succ n =>
      rw [descendantIds]
      exact List.mem_cons_self _ _
  | head c y x hy _ ih =>
    intro hc n hn
    have hycs : y ∈ cs := mem_of_mem_childrenOf hy
    have hlt : d c.key < d y.key := rank_lt_of_child hA hc hy
    have hM := hA.1 c hc
    have hMy := hA.1 y hycs
    cases n with
    | zero => omega
    | succ n =>
      rw [descendantIds]
      refine List.mem_cons_of_mem _ ?_
      refine List.mem_flatMap.2 ⟨y, hy, ?_⟩
      exact ih hycs n (by omega)

/-- A resolved parent step lands in the mapping and links back via
`parent_key`. -/
theorem parentIn_spec {cs : List ZColl} {c p : ZColl}
    (h : parentIn cs c = some p) : p ∈ cs ∧ c.parent_key = some p.key := by
  unfold parentIn at h
  split at h
  · exact Option.noConfusion h
  · rename_i pk hpk
    have hpkey : p.key = pk := by
      have := List.find?_some h
      rwa [beq_iff_eq] at this
    exact ⟨List.mem_of_find?_eq_some h, by rw [hpk, hpkey]⟩

/-- Under an acyclic rank, the ancestor walk of `full_path` returns within
rank-many steps. -/
theorem ancestorNames_isSome {cs : List ZColl} {d : String → Nat} {M : Nat}
    (hA : AcyclicRank cs d M) :
    ∀ fuel, ∀ c ∈ cs, d c.key ≤ fuel →
      (ancestorNames cs fuel c).isSome = true := by
  intro fuel
  induction fuel with
  | zero =>
    intro c hc hdc
    cases hp : parentIn cs c with
    | none =>
      rw [ancestorNames, hp]
      rfl
    | some p =>
      exfalso
      rcases parentIn_spec hp with ⟨hpcs, hpk⟩
      have : d p.key < d c.key := hA.2 p hpcs c hc hpk
      omega
  | succ fuel ih =>
    intro c hc hdc
    cases hp : parentIn cs c with
    | none =>
      rw [ancestorNames, hp]
      rfl
    | some p =>
      rcases parentIn_spec hp with ⟨hpcs, hpk⟩
      have hlt : d p.key < d c.key := hA.2 p hpcs c hc hpk
      rw [ancestorNames, hp]
      rw [ancestorNamesAux, Option.isSome_map']
      exact ih p hpcs (by omega)

/-- C10: for every collection mapping whose parent/children links form an
acyclic forest (witnessed by a bounded rank), the recursive descendant
traversal terminates — its result is stable once the fuel covers the rank
bound — and returns exactly the key of the given collection together with
the keys of all of its descendants; and the ancestry-path walk of
`full_path` terminates for every node of the mapping. -/
theorem descendant_and_ancestor_traversal (cs : List ZColl) (d : String → Nat)
    (M : Nat) (hA : AcyclicRank cs d M) :
    (∀ c ∈ cs, ∀ m, M + 1 ≤ m →
      descendantIds cs m c = descendantIds cs (M + 1) c) ∧
    (∀ c ∈ cs, ∀ k, k ∈ descendantIds cs (M + 1) c ↔
      ∃ x, Desc cs c x ∧ x.key = k) ∧
    (∀ c ∈ cs, ∀ fuel, d c.key ≤ fuel →
      (ancestorNames cs fuel c).isSome = true) := by
  refine ⟨?_, ?_, ?_⟩
  · intro c hc m hm
    exact descendantIds_stable hA (M + 1) c hc (by omega) m hm
  · intro c hc k
    constructor
    · exact mem_descendantIds_sound (M + 1) c k
    · rintro ⟨x, hx, rfl⟩
      exact mem_descendantIds_complete hA c x hx hc (M + 1) (by omega)
  · intro c hc fuel hfuel
    exact ancestorNames_isSome hA fuel c hc hfuel

/-- Witness for C10: on the example forest the traversal is stable beyond
fuel 2, lists exactly the `Bio` subtree, and the ancestor walk of the
`SingleCell` child returns within fuel 1. -/
theorem descendant_and_ancestor_traversal_witness :
    descendantIds bioForest 5 ⟨"1", "Bio", none⟩ =
      descendantIds bioForest 2 ⟨"1", "Bio", none⟩ ∧
    ("2" ∈ descendantIds bioForest 2 ⟨"1", "Bio", none⟩ ↔
      ∃ x, Desc bioForest ⟨"1", "Bio", none⟩ x ∧ x.key = "2") ∧
    (ancestorNames bioForest 1 ⟨"2", "SingleCell", some "1"⟩).isSome = true := by
  have h := descendant_and_ancestor_traversal bioForest dBio 1 (by decide)
  exact ⟨h.1 ⟨"1", "Bio", none⟩ (by decide) 5 (by decide),
    h.2.1 ⟨"1", "Bio", none⟩ (by decide) "2",
    h.2.2 ⟨"2", "SingleCell", some "1"⟩ (by decide) 1 (by decide)⟩

end ZotWatcher
